import Mathlib

/-!
Shallow embedding of the delayed-task scheduler in src/main.cpp.

Time points (std::chrono::steady_clock::time_point) are modelled as
integers (clock ticks).  The job set
`std::set<std::shared_ptr<Job>, JobComparator>` is modelled as its sorted
iteration order, a `List Job`; `std::set::insert` under a strict weak
order refuses to insert an element equivalent to an existing one, which
`setInsert` reproduces.  Each allocated `shared_ptr<Job>` is tagged with a
unique allocation number `seq` (the `weak_ptr` handle returned by
`schedule` is that tag); the tag is NOT part of the C++ `Job` record and
is never consulted by the comparator, exactly as in the source.  Side
effects of the worker and the API calls (locking, condition-variable
signalling, recording `got[id] = now`, invoking the action, erasing,
timed waits) are reified as an event trace.
-/

namespace Sched

/-- Clock ticks of the monotonic clock. -/
abbrev Time := Int

/-- Scheduler::Job (src/main.cpp:45): id, due time `launch_at`, cancellation
flag.  The action `fn` is opaque (it neither reads nor writes scheduler
state); its invocation is recorded in the event trace instead.  `seq` tags
the `shared_ptr` allocation so that handles can be modelled. -/
structure Job where
  seq : Nat
  id : Nat
  launch_at : Time
  canceled : Bool
deriving DecidableEq

/-- Job::operator< (src/main.cpp:51): compares `launch_at` only. -/
def Job.lt (a b : Job) : Bool :=
  a.launch_at < b.launch_at

/-- Scheduler::JobComparator (src/main.cpp:56): dereferences the two
shared pointers and applies Job::operator<. -/
def JobComparator (a b : Job) : Bool :=
  Job.lt a b

/-- The ordering key the spec prescribes for the job queue: the pair
`(due_at, id)`, id as tie-break.  Modelled from the spec (section 4.2) for
comparison with the code's `JobComparator`; it is not what the code does. -/
def specPairKeyLt (a b : Job) : Bool :=
  a.launch_at < b.launch_at || (a.launch_at == b.launch_at && a.id < b.id)

/-- std::set insert on the sorted element list: insert before the first
strictly greater element; if an equivalent element is met (neither
comparator direction holds), the insertion is refused and the set is
returned unchanged (src/main.cpp:75 `jobs.insert(ptr)`). -/
def setInsert (j : Job) : List Job → List Job
  | [] => [j]
  | x :: xs =>
    if JobComparator j x then j :: x :: xs
    else if JobComparator x j then x :: setInsert j xs
    else x :: xs

/-- Scheduler state: the job set (in iteration order) and the next
`shared_ptr` allocation tag. -/
structure SchedState where
  jobs : List Job
  nextSeq : Nat
deriving DecidableEq

/-- The state of a freshly constructed Scheduler: empty set. -/
def initState : SchedState :=
  ⟨[], 0⟩

/-- Observable side effects of the scheduler code. -/
inductive Ev where
  | lock
  | unlock
  | notify
  | record (j : Job) (t : Time)
  | invoke (id : Nat)
  | erase (seq : Nat)
  | waitUntil (t : Time)
deriving DecidableEq

/-- Scheduler::schedule (src/main.cpp:72): lock the mutex, allocate the
Job (canceled = false), `jobs.insert`, `notify_one`, unlock on return.
Returns the new state, the handle (the allocation tag wrapped by the
returned `weak_ptr`) and the event trace. -/
def schedule (s : SchedState) (id : Nat) (at_ : Time) : SchedState × Nat × List Ev :=
  (⟨setInsert ⟨s.nextSeq, id, at_, false⟩ s.jobs, s.nextSeq + 1⟩,
   s.nextSeq,
   [Ev.lock, Ev.notify, Ev.unlock])

/-- Fold `schedule` over a batch of (id, due time) pairs. -/
def scheduleAll (s : SchedState) : List (Nat × Time) → SchedState
  | [] => s
  | (i, t) :: rest => scheduleAll (schedule s i t).1 rest

/-- Scheduler::done (src/main.cpp:80): the set is empty. -/
def done (s : SchedState) : Bool :=
  s.jobs.isEmpty

/-- Whether the `weak_ptr` handle is still alive.  Once `schedule`
returns, the only owning `shared_ptr` is the copy held by the set, so the
handle is alive exactly when a job with that allocation tag is still in
the set (in particular a handle to a job whose insertion was refused is
already expired when `schedule` returns). -/
def handleAlive (s : SchedState) (h : Nat) : Bool :=
  s.jobs.any fun j => j.seq == h

/-- The in-place flag write `handle.lock()->canceled = true`
(src/main.cpp:90), applied to the job the handle designates. -/
def markCanceled (h : Nat) (j : Job) : Job :=
  if j.seq == h then { j with canceled := true } else j

/-- Scheduler::cancel (src/main.cpp:85): lock; if the handle is expired,
return; otherwise set the pointee's `canceled` flag.  The job is not
erased and no condition-variable signal is sent. -/
def cancel (s : SchedState) (h : Nat) : SchedState × List Ev :=
  if handleAlive s h then
    (⟨s.jobs.map (markCanceled h), s.nextSeq⟩, [Ev.lock, Ev.unlock])
  else
    (s, [Ev.lock, Ev.unlock])

/-- Body of the while loop of Scheduler::execute_pending
(src/main.cpp:105): repeatedly look at `jobs.begin()`; erase it if
canceled; if its due time is in the future, `wait_until` that time and
return; otherwise record `got[id] = now`, invoke the action, erase it and
continue.  Returns the trace, the remaining set and whether the timed
wait was taken. -/
def execGo (now : Time) : List Job → List Ev × List Job × Bool
  | [] => ([], [], false)
  | j :: rest =>
    if j.canceled then
      let r := execGo now rest
      (Ev.erase j.seq :: r.1, r.2)
    else if now < j.launch_at then
      ([Ev.waitUntil j.launch_at], j :: rest, true)
    else
      let r := execGo now rest
      (Ev.record j now :: Ev.invoke j.id :: Ev.erase j.seq :: r.1, r.2)

/-- Scheduler::execute_pending (src/main.cpp:103): take the unique_lock,
run the loop body, release the lock when the function returns.  The lock
is held across the whole trace between the `lock` and `unlock` events —
including action invocations. -/
def execute_pending (now : Time) (s : SchedState) : SchedState × List Ev × Bool :=
  let r := execGo now s.jobs
  (⟨r.2.1, s.nextSeq⟩, Ev.lock :: r.1 ++ [Ev.unlock], r.2.2)

/-- The `got[id] = now` records of a trace, in order, paired with the job
they were recorded for. -/
def recordsOf : List Ev → List (Job × Time)
  | [] => []
  | Ev.record j t :: evs => (j, t) :: recordsOf evs
  | Ev.lock :: evs => recordsOf evs
  | Ev.unlock :: evs => recordsOf evs
  | Ev.notify :: evs => recordsOf evs
  | Ev.invoke _ :: evs => recordsOf evs
  | Ev.erase _ :: evs => recordsOf evs
  | Ev.waitUntil _ :: evs => recordsOf evs

/-- The ids whose actions a trace invokes, in order. -/
def invokesOf : List Ev → List Nat
  | [] => []
  | Ev.invoke i :: evs => i :: invokesOf evs
  | Ev.lock :: evs => invokesOf evs
  | Ev.unlock :: evs => invokesOf evs
  | Ev.notify :: evs => invokesOf evs
  | Ev.record _ _ :: evs => invokesOf evs
  | Ev.erase _ :: evs => invokesOf evs
  | Ev.waitUntil _ :: evs => invokesOf evs

/-- Scan a trace and report whether some action invocation happens while
the mutex is held (first argument: is the lock currently held). -/
def invokesUnderLockGo : Bool → List Ev → Bool
  | _, [] => false
  | _, Ev.lock :: evs => invokesUnderLockGo true evs
  | _, Ev.unlock :: evs => invokesUnderLockGo false evs
  | held, Ev.invoke _ :: evs => held || invokesUnderLockGo held evs
  | held, _ :: evs => invokesUnderLockGo held evs

/-- Whether some action invocation in the trace runs while the mutex is
held. -/
def invokesUnderLock (evs : List Ev) : Bool :=
  invokesUnderLockGo false evs

/-- Scheduler::loop (src/main.cpp:94), one clock reading per iteration:
`while (true) { if (done() && no_tasks_left) break; execute_pending(time.now()); }`.
The external flag `no_tasks_left` is `flag`; the successive values
returned by `time.now()` are supplied as the list `nows`, which also
bounds the number of iterations (fuel).  Returns the final state, the
concatenated trace and whether the loop exited via its break. -/
def loopRun (flag : Bool) : List Time → SchedState → SchedState × List Ev × Bool
  | [], s => (s, [], false)
  | now :: rest, s =>
    if done s && flag then (s, [], true)
    else
      let r := execute_pending now s
      let r2 := loopRun flag rest r.1
      (r2.1, r.2.1 ++ r2.2.1, r2.2.2)

/-- FakeTime (src/main.cpp:130): the virtual clock is just its stored
time point. -/
structure FakeTime where
  now_ : Time
deriving DecidableEq

/-- FakeTime's constructor (src/main.cpp:131) stores the real monotonic
now, supplied here as `base`. -/
def FakeTime.init (base : Time) : FakeTime :=
  ⟨base⟩

/-- FakeTime::now (src/main.cpp:135): return the stored value. -/
def FakeTime.now (t : FakeTime) : Time :=
  t.now_

/-- FakeTime::advance (src/main.cpp:141): shift the stored value by the
given amount. -/
def FakeTime.advance (t : FakeTime) (d : Time) : FakeTime :=
  ⟨t.now_ + d⟩

/-- Operations callable on the virtual clock. -/
inductive TimeOp where
  | readNow
  | advanceBy (d : Time)

/-- Apply one clock operation; `now()` does not change the state. -/
def applyOp (t : FakeTime) : TimeOp → FakeTime
  | TimeOp.readNow => t
  | TimeOp.advanceBy d => t.advance d

/-- Run a sequence of clock operations. -/
def runOps (t : FakeTime) : List TimeOp → FakeTime
  | [] => t
  | op :: ops => runOps (applyOp t op) ops

/-- Total of the explicit advance amounts of an operation sequence. -/
def advanceSum : List TimeOp → Time
  | [] => 0
  | TimeOp.readNow :: ops => advanceSum ops
  | TimeOp.advanceBy d :: ops => d + advanceSum ops

/-- RealTime (src/main.cpp:151): no state of its own (now() reads the
platform clock). -/
structure RealTime where
deriving DecidableEq

/-- RealTime::advance (src/main.cpp:157): empty body. -/
def RealTime.advance (t : RealTime) (_d : Time) : RealTime :=
  t

/-- A job list is in set iteration order: strictly increasing in
`launch_at` (the comparator compares nothing else). -/
def SortedQ (q : List Job) : Prop :=
  q.Pairwise fun a b => a.launch_at < b.launch_at

/-- C1: the spec requires the queue key to be the pair (due_at, id) so
that two jobs with equal due times are distinct elements and both
execute; the code keys the set by `launch_at` alone, so scheduling D
(id 1) and E (id 2) both due at 10 silently drops E: only D is in the
queue, only D's action is ever invoked, and E's handle is already expired
when its `schedule` returns.  The spec's pair key would have ordered the
two jobs, as `specPairKeyLt` shows. -/
theorem C1_equal_due_second_insert_dropped :
    (scheduleAll initState [(1, 10), (2, 10)]).jobs.map Job.id = [1] ∧
    invokesOf (loopRun true [10, 10] (scheduleAll initState [(1, 10), (2, 10)])).2.1 = [1] ∧
    handleAlive (scheduleAll initState [(1, 10), (2, 10)]) 1 = false ∧
    JobComparator ⟨0, 1, 10, false⟩ ⟨1, 2, 10, false⟩ = false ∧
    JobComparator ⟨1, 2, 10, false⟩ ⟨0, 1, 10, false⟩ = false ∧
    specPairKeyLt ⟨0, 1, 10, false⟩ ⟨1, 2, 10, false⟩ = true := by
  decide

/-- C3: the worker invokes a due job's action while still holding the
queue mutex, and erases the job only after the action returns: the trace
of a dispatch of the single job (id 7, due 0) at now = 0 is
lock, record, invoke, erase, unlock — the claim's order
(remove, release, then invoke) does not happen and the lock is held at
the invoke. -/
theorem C3_invoke_holds_lock :
    (execute_pending 0 (schedule initState 7 0).1).2.1 =
      [Ev.lock, Ev.record ⟨0, 7, 0, false⟩ 0, Ev.invoke 7, Ev.erase 0, Ev.unlock] ∧
    invokesUnderLock (execute_pending 0 (schedule initState 7 0).1).2.1 = true := by
  decide

/-- C2 counterexample: a job (id 7, due 10) is scheduled and its handle
is alive, yet `cancel` neither removes it from the queue (it is still the
queue's one element) nor signals the condition variable (no notify event
in cancel's trace). -/
theorem C2_cancel_neither_removes_nor_notifies :
    handleAlive (schedule initState 7 10).1 0 = true ∧
    (cancel (schedule initState 7 10).1 0).1.jobs.map Job.seq = [0] ∧
    Ev.notify ∉ (cancel (schedule initState 7 10).1 0).2 := by
  decide

/-- Writing the cancellation flag does not change the allocation tag. -/
theorem markCanceled_seq (h : Nat) (j : Job) : (markCanceled h j).seq = j.seq := by
  unfold markCanceled
  split <;> rfl

/-- Writing the cancellation flag twice equals writing it once. -/
theorem markCanceled_idem (h : Nat) (j : Job) :
    markCanceled h (markCanceled h j) = markCanceled h j := by
  unfold markCanceled
  by_cases hj : j.seq == h <;> simp [hj]

/-- C2 amended: `cancel` on a live handle only sets the pointee's
canceled flag — the job stays in the queue (same elements by allocation
tag) until the worker's skip-canceled step erases it — and cancel's trace
carries no condition-variable signal (only `schedule` notifies,
src/main.cpp:76). -/
theorem C2_cancel_marks_in_place (s : SchedState) (h : Nat)
    (ha : handleAlive s h = true) :
    (cancel s h).1.jobs.map Job.seq = s.jobs.map Job.seq ∧
    (∀ j ∈ (cancel s h).1.jobs, j.seq = h → j.canceled = true) ∧
    (cancel s h).2 = [Ev.lock, Ev.unlock] ∧
    Ev.notify ∈ (schedule s 0 0).2.2 := by
  refine ⟨?_, ?_, by simp [cancel, ha], by simp [schedule]⟩
  · simp only [cancel, ha, if_true, List.map_map]
    apply List.map_congr_left
    intro j _
    simp only [Function.comp_apply]
    exact markCanceled_seq h j
  · intro j hj hseq
    simp only [cancel, ha, if_true] at hj
    obtain ⟨x, _, hx⟩ := List.mem_map.mp hj
    by_cases hxh : x.seq == h
    · simp only [markCanceled, hxh, if_true] at hx
      exact hx ▸ rfl
    · simp only [markCanceled] at hx
      rw [if_neg hxh] at hx
      subst hx
      exact absurd (by simp [hseq]) hxh

/-- C2 amended witness: the amended statement at the concrete state
holding one job (id 42, due 10) with its live handle 0. -/
theorem C2_cancel_marks_in_place_witness :
    (cancel (schedule initState 42 10).1 0).1.jobs.map Job.seq =
      (schedule initState 42 10).1.jobs.map Job.seq ∧
    (∀ j ∈ (cancel (schedule initState 42 10).1 0).1.jobs, j.seq = 0 → j.canceled = true) ∧
    (cancel (schedule initState 42 10).1 0).2 = [Ev.lock, Ev.unlock] ∧
    Ev.notify ∈ (schedule (schedule initState 42 10).1 0 0).2.2 :=
  C2_cancel_marks_in_place (schedule initState 42 10).1 0 (by decide)

/-- Cancelling preserves each job's allocation tag, so a handle stays
alive across a cancel of itself. -/
theorem handleAlive_after_cancel (s : SchedState) (h : Nat) :
    handleAlive (cancel s h).1 h = handleAlive s h := by
  by_cases ha : handleAlive s h
  · simp only [cancel]
    rw [if_pos ha]
    simp only [handleAlive, List.any_map]
    congr 1
    funext j
    simp only [Function.comp_apply, markCanceled_seq]
  · simp [cancel, ha]

/-- C7: cancel on a stale handle (job already executed, already erased,
or never inserted) is a silent no-op: the state is unchanged and the
trace is the same lock/unlock pair as any cancel — no error event exists;
and cancelling the same handle a second time leaves exactly the state of
the first cancel. -/
theorem C7_cancel_stale_noop_and_idempotent (s : SchedState) (h : Nat) :
    (handleAlive s h = false → cancel s h = (s, [Ev.lock, Ev.unlock])) ∧
    (cancel (cancel s h).1 h).1 = (cancel s h).1 ∧
    (cancel s h).2 = [Ev.lock, Ev.unlock] := by
  refine ⟨fun hs => by simp [cancel, hs], ?_, ?_⟩
  · by_cases ha : handleAlive s h
    · have ha2 : handleAlive (cancel s h).1 h = true := by
        rw [handleAlive_after_cancel]; exact ha
      simp only [cancel, ha, if_true] at ha2 ⊢
      simp only [ha2, if_true, SchedState.mk.injEq, and_true, List.map_map]
      apply List.map_congr_left
      intro j _
      simp only [Function.comp_apply, markCanceled_idem]
    · simp [cancel, ha]
  · by_cases ha : handleAlive s h <;> simp [cancel, ha]

/-- C7 witness: cancelling the never-issued handle 5 on the empty
scheduler is a no-op, and the double cancel of handle 0 after scheduling
job (id 9, due 4) equals the single cancel. -/
theorem C7_witness :
    cancel initState 5 = (initState, [Ev.lock, Ev.unlock]) ∧
    (cancel (cancel (schedule initState 9 4).1 0).1 0).1 =
      (cancel (schedule initState 9 4).1 0).1 :=
  ⟨(C7_cancel_stale_noop_and_idempotent initState 5).1 (by decide),
   (C7_cancel_stale_noop_and_idempotent (schedule initState 9 4).1 0).2.1⟩

/-- The virtual clock's value after any operation sequence is its
starting value plus the total of the explicit advances. -/
theorem runOps_now (ops : List TimeOp) : ∀ t : FakeTime,
    (runOps t ops).now = t.now + advanceSum ops := by
  induction ops with
  | nil => intro t; simp [runOps, advanceSum]
  | cons op rest ih =>
    intro t
    cases op with
    | readNow => simp only [runOps, applyOp, advanceSum]; exact ih t
    | advanceBy d =>
      simp only [runOps, applyOp, advanceSum]
      rw [ih]
      simp [FakeTime.advance, FakeTime.now]
      ring

/-- C8: the virtual clock starts at the real monotonic base time captured
at construction; each `advance d` shifts its value by exactly `d`; after
any sequence of reads and advances its value is the base plus the sum of
the explicit advances (reads never move it — no implicit wall-clock
drift); and the real clock's `advance` is a no-op. -/
theorem C8_fake_time_only_explicit_advances :
    (∀ base : Time, (FakeTime.init base).now = base) ∧
    (∀ (t : FakeTime) (d : Time), (t.advance d).now = t.now + d) ∧
    (∀ (base : Time) (ops : List TimeOp),
      (runOps (FakeTime.init base) ops).now = base + advanceSum ops) ∧
    (∀ (r : RealTime) (d : Time), r.advance d = r) := by
  refine ⟨fun base => rfl, fun t d => rfl, fun base ops => ?_, fun r d => rfl⟩
  rw [runOps_now]
  rfl

/-- Unfolding execGo on the empty set. -/
theorem execGo_nil (now : Time) : execGo now [] = ([], [], false) :=
  rfl

/-- Unfolding execGo when the front job is canceled: erase and continue. -/
theorem execGo_cons_canceled (now : Time) (j : Job) (rest : List Job)
    (hc : j.canceled = true) :
    execGo now (j :: rest) = (Ev.erase j.seq :: (execGo now rest).1, (execGo now rest).2) := by
  simp [execGo, hc]

/-- Unfolding execGo when the front job is due in the future: take the
timed wait and return with the queue unchanged. -/
theorem execGo_cons_wait (now : Time) (j : Job) (rest : List Job)
    (hc : j.canceled = false) (hl : now < j.launch_at) :
    execGo now (j :: rest) = ([Ev.waitUntil j.launch_at], j :: rest, true) := by
  simp [execGo, hc, hl]

/-- Unfolding execGo when the front job is due: record, invoke, erase,
continue. -/
theorem execGo_cons_due (now : Time) (j : Job) (rest : List Job)
    (hc : j.canceled = false) (hl : ¬ now < j.launch_at) :
    execGo now (j :: rest) =
      (Ev.record j now :: Ev.invoke j.id :: Ev.erase j.seq :: (execGo now rest).1,
       (execGo now rest).2) := by
  simp [execGo, hc, hl]

/-- Record extraction distributes over trace concatenation. -/
theorem recordsOf_append (a b : List Ev) :
    recordsOf (a ++ b) = recordsOf a ++ recordsOf b := by
  induction a with
  | nil => simp [recordsOf]
  | cons e evs ih => cases e <;> simp [recordsOf, ih]

/-- Every record written by a dispatch pass carries the pass's clock
snapshot as its time, belongs to a job of the incoming queue that is not
canceled, and that job was due at the snapshot. -/
theorem execGo_records (now : Time) : ∀ q : List Job, ∀ p ∈ recordsOf (execGo now q).1,
    p.2 = now ∧ p.1.canceled = false ∧ p.1.launch_at ≤ now ∧ p.1 ∈ q := by
  intro q
  induction q with
  | nil =>
    intro p hp
    simp [execGo_nil, recordsOf] at hp
  | cons j rest ih =>
    intro p hp
    cases hc : j.canceled with
    | true =>
      rw [execGo_cons_canceled now j rest hc] at hp
      simp only [recordsOf] at hp
      obtain ⟨h1, h2, h3, h4⟩ := ih p hp
      exact ⟨h1, h2, h3, List.mem_cons_of_mem j h4⟩
    | false =>
      by_cases hl : now < j.launch_at
      · rw [execGo_cons_wait now j rest hc hl] at hp
        simp [recordsOf] at hp
      · rw [execGo_cons_due now j rest hc hl] at hp
        simp only [recordsOf] at hp
        rcases List.mem_cons.mp hp with heq | hmem
        · subst heq
          exact ⟨rfl, hc, not_lt.mp hl, List.mem_cons_self j rest⟩
        · obtain ⟨h1, h2, h3, h4⟩ := ih p hmem
          exact ⟨h1, h2, h3, List.mem_cons_of_mem j h4⟩

/-- The records of a whole execute_pending call are those of its loop
body (the lock/unlock bracket adds none). -/
theorem records_execute_pending (now : Time) (s : SchedState) :
    recordsOf (execute_pending now s).2.1 = recordsOf (execGo now s.jobs).1 := by
  simp [execute_pending, recordsOf, recordsOf_append]

/-- C4: no early execution — every record `got[id] = now` written by a
dispatch pass is for a non-canceled job whose `launch_at` is at most the
recorded execution time (the worker only takes the execute branch when
`launch_at <= now`, src/main.cpp:112). -/
theorem C4_no_early_execution (now : Time) (s : SchedState) :
    ∀ p ∈ recordsOf (execute_pending now s).2.1,
      p.1.launch_at ≤ p.2 ∧ p.1.canceled = false := by
  intro p hp
  rw [records_execute_pending] at hp
  obtain ⟨h1, h2, h3, _⟩ := execGo_records now s.jobs p hp
  exact ⟨h1 ▸ h3, h2⟩

/-- C4 witness: dispatching the queue holding job (id 3, due 5) at
now = 7 records that job with time 7, and 5 ≤ 7. -/
theorem C4_no_early_execution_witness :
    ((⟨0, 3, 5, false⟩ : Job), (7 : Time)).1.launch_at ≤
      ((⟨0, 3, 5, false⟩ : Job), (7 : Time)).2 ∧
    ((⟨0, 3, 5, false⟩ : Job), (7 : Time)).1.canceled = false :=
  C4_no_early_execution 7 (schedule initState 3 5).1 (⟨0, 3, 5, false⟩, 7) (by decide)

/-- C9: one clock snapshot per pass — the loop reads `time.now()` once
and passes it down (src/main.cpp:99), and every record the pass writes
carries exactly that snapshot, so all jobs dispatched in one pass share
one recorded timestamp. -/
theorem C9_one_snapshot_per_pass (now : Time) (s : SchedState) :
    ∀ p ∈ recordsOf (execute_pending now s).2.1, p.2 = now := by
  intro p hp
  rw [records_execute_pending] at hp
  exact (execGo_records now s.jobs p hp).1

/-- C9 witness: dispatching job (id 8, due 11) at now = 12 records
time 12. -/
theorem C9_one_snapshot_per_pass_witness :
    ((⟨0, 8, 11, false⟩ : Job), (12 : Time)).2 = (12 : Time) :=
  C9_one_snapshot_per_pass 12 (schedule initState 8 11).1 (⟨0, 8, 11, false⟩, 12) (by decide)

/-- When a pass ends in the timed wait, the queue it leaves behind starts
with a non-canceled job that is due strictly in the future. -/
theorem execGo_wait (now : Time) : ∀ q : List Job, (execGo now q).2.2 = true →
    ∃ j l, (execGo now q).2.1 = j :: l ∧ j.canceled = false ∧ now < j.launch_at := by
  intro q
  induction q with
  | nil =>
    intro h
    simp [execGo_nil] at h
  | cons j rest ih =>
    intro h
    cases hc : j.canceled with
    | true =>
      rw [execGo_cons_canceled now j rest hc] at h ⊢
      exact ih h
    | false =>
      by_cases hl : now < j.launch_at
      · rw [execGo_cons_wait now j rest hc hl]
        exact ⟨j, rest, rfl, hc, hl⟩
      · rw [execGo_cons_due now j rest hc hl] at h ⊢
        exact ih h

/-- A pass over a queue whose every job is already due (or canceled)
drains it completely without taking the timed wait. -/
theorem execGo_drains (now : Time) : ∀ q : List Job,
    (∀ j ∈ q, j.launch_at ≤ now) →
    (execGo now q).2.1 = [] ∧ (execGo now q).2.2 = false := by
  intro q
  induction q with
  | nil =>
    intro _
    simp [execGo_nil]
  | cons j rest ih =>
    intro hall
    have hrest : ∀ k ∈ rest, k.launch_at ≤ now := fun k hk => hall k (List.mem_cons_of_mem j hk)
    cases hc : j.canceled with
    | true =>
      rw [execGo_cons_canceled now j rest hc]
      exact ih hrest
    | false =>
      have hl : ¬ now < j.launch_at := not_lt.mpr (hall j (List.mem_cons_self j rest))
      rw [execGo_cons_due now j rest hc hl]
      exact ih hrest

/-- Unfolding loopRun with no clock readings left. -/
theorem loopRun_nil (flag : Bool) (s : SchedState) : loopRun flag [] s = (s, [], false) :=
  rfl

/-- Unfolding loopRun at its break: queue empty and flag raised. -/
theorem loopRun_cons_exit (flag : Bool) (now : Time) (rest : List Time) (s : SchedState)
    (hd : (done s && flag) = true) :
    loopRun flag (now :: rest) s = (s, [], true) := by
  simp [loopRun, hd]

/-- Unfolding loopRun when it does not break: run a pass, then recurse. -/
theorem loopRun_cons_go (flag : Bool) (now : Time) (rest : List Time) (s : SchedState)
    (hd : ¬ (done s && flag) = true) :
    loopRun flag (now :: rest) s =
      ((loopRun flag rest (execute_pending now s).1).1,
       (execute_pending now s).2.1 ++ (loopRun flag rest (execute_pending now s).1).2.1,
       (loopRun flag rest (execute_pending now s).1).2.2) := by
  simp [loopRun, hd]

/-- C6: the dispatch loop's only exit is its break, taken exactly when
the queue is empty and the external no-more-submissions flag is raised —
whenever the loop reports having exited, the flag was raised and the
queue at exit is empty; and conversely once the flag is raised and every
queued job is already due, the loop does exit (one draining pass followed
by the break). -/
theorem C6_exit_only_when_drained_and_flagged :
    (∀ (flag : Bool) (nows : List Time) (s : SchedState),
      (loopRun flag nows s).2.2 = true →
      flag = true ∧ (loopRun flag nows s).1.jobs = []) ∧
    (∀ (now now2 : Time) (rest : List Time) (s : SchedState),
      (∀ j ∈ s.jobs, j.launch_at ≤ now) →
      (loopRun true (now :: now2 :: rest) s).2.2 = true) := by
  constructor
  · intro flag nows
    induction nows with
    | nil =>
      intro s h
      simp [loopRun_nil] at h
    | cons now rest ih =>
      intro s h
      by_cases hd : (done s && flag) = true
      · rw [loopRun_cons_exit flag now rest s hd]
        rw [Bool.and_eq_true] at hd
        obtain ⟨h1, h2⟩ := hd
        simp only [done, List.isEmpty_iff] at h1
        exact ⟨h2, h1⟩
      · rw [loopRun_cons_go flag now rest s hd] at h ⊢
        exact ih (execute_pending now s).1 h
  · intro now now2 rest s hall
    by_cases hd : (done s && true) = true
    · rw [loopRun_cons_exit true now (now2 :: rest) s hd]
    · rw [loopRun_cons_go true now (now2 :: rest) s hd]
      have hdrain := (execGo_drains now s.jobs hall).1
      have hjobs : (execute_pending now s).1.jobs = [] := by
        simp [execute_pending, hdrain]
      have hdone : (done (execute_pending now s).1 && true) = true := by
        simp [done, hjobs]
      rw [loopRun_cons_exit true now2 rest (execute_pending now s).1 hdone]

/-- C6 witness: with the flag raised and job (id 4, due 5) due at
now = 5, the loop exits and its exit state has an empty queue. -/
theorem C6_exit_witness :
    (loopRun true [5, 5] (schedule initState 4 5).1).2.2 = true ∧
    (loopRun true [5, 5] (schedule initState 4 5).1).1.jobs = [] := by
  have h := C6_exit_only_when_drained_and_flagged.2 5 5 [] (schedule initState 4 5).1
    (by decide)
  exact ⟨h, (C6_exit_only_when_drained_and_flagged.1 true [5, 5] (schedule initState 4 5).1 h).2⟩

/-- C10: with an empty queue and the flag down, a pass returns at once —
no wait, no state change, an empty trace apart from the lock bracket —
so the loop busy-spins; and the only blocking point is the timed wait,
taken exactly when the earliest surviving job is due strictly in the
future (that job heads the queue the pass leaves behind). -/
theorem C10_busy_spin_empty_queue :
    (∀ (now : Time) (s : SchedState), s.jobs = [] →
      execute_pending now s = (s, [Ev.lock, Ev.unlock], false)) ∧
    (∀ (flag : Bool) (now : Time) (s : SchedState), s.jobs = [] → flag = false →
      loopRun flag [now] s = (s, [Ev.lock, Ev.unlock], false)) ∧
    (∀ (now : Time) (s : SchedState), (execute_pending now s).2.2 = true →
      ∃ j l, (execute_pending now s).1.jobs = j :: l ∧
        j.canceled = false ∧ now < j.launch_at) := by
  have h1 : ∀ (now : Time) (s : SchedState), s.jobs = [] →
      execute_pending now s = (s, [Ev.lock, Ev.unlock], false) := by
    intro now s hs
    obtain ⟨js, n⟩ := s
    simp only at hs
    subst hs
    rfl
  refine ⟨h1, ?_, ?_⟩
  · intro flag now s hs hflag
    subst hflag
    have hd : ¬ (done s && false) = true := by simp
    rw [loopRun_cons_go false now [] s hd, h1 now s hs, loopRun_nil]
    simp
  · intro now s h
    simp only [execute_pending] at h
    obtain ⟨j, l, hq, hc, hl⟩ := execGo_wait now s.jobs h
    exact ⟨j, l, by simp [execute_pending, hq], hc, hl⟩

/-- C10 witness: the empty scheduler spins (state unchanged, no wait)
with the flag down, and dispatching the queue holding job (id 9, due 8)
at now = 3 takes the wait, leaving that job, non-canceled and future-due,
at the front. -/
theorem C10_busy_spin_witness :
    execute_pending 3 initState = (initState, [Ev.lock, Ev.unlock], false) ∧
    loopRun false [3] initState = (initState, [Ev.lock, Ev.unlock], false) ∧
    ∃ j l, (execute_pending 3 (schedule initState 9 8).1).1.jobs = j :: l ∧
      j.canceled = false ∧ (3 : Time) < j.launch_at :=
  ⟨C10_busy_spin_empty_queue.1 3 initState rfl,
   C10_busy_spin_empty_queue.2.1 false 3 initState rfl rfl,
   C10_busy_spin_empty_queue.2.2 3 (schedule initState 9 8).1 (by decide)⟩

/-- The comparator holds exactly when the left job is due strictly
earlier. -/
theorem jobComparator_iff (a b : Job) :
    JobComparator a b = true ↔ a.launch_at < b.launch_at := by
  simp [JobComparator, Job.lt]

/-- Elements of the set after an insert are the inserted job or old
elements. -/
theorem mem_setInsert (j : Job) : ∀ (q : List Job) (x : Job),
    x ∈ setInsert j q → x = j ∨ x ∈ q := by
  intro q
  induction q with
  | nil =>
    intro x hx
    simp only [setInsert] at hx
    exact Or.inl (List.mem_singleton.mp hx)
  | cons y ys ih =>
    intro x hx
    simp only [setInsert] at hx
    by_cases h1 : JobComparator j y = true
    · rw [if_pos h1] at hx
      rcases List.mem_cons.mp hx with rfl | hx'
      · exact Or.inl rfl
      · exact Or.inr hx'
    · rw [if_neg h1] at hx
      by_cases h2 : JobComparator y j = true
      · rw [if_pos h2] at hx
        rcases List.mem_cons.mp hx with rfl | hx'
        · exact Or.inr (List.mem_cons_self _ _)
        · rcases ih x hx' with h | h
          · exact Or.inl h
          · exact Or.inr (List.mem_cons_of_mem y h)
      · rw [if_neg h2] at hx
        exact Or.inr hx

/-- std::set insert keeps the element list strictly sorted by due time
(the set's strict weak order admits no equivalent pair, so sortedness is
strict). -/
theorem sorted_setInsert (j : Job) : ∀ q : List Job,
    SortedQ q → SortedQ (setInsert j q) := by
  intro q
  induction q with
  | nil =>
    intro _
    simp [setInsert, SortedQ]
  | cons x xs ih =>
    intro hs
    obtain ⟨hx, hxs⟩ := List.pairwise_cons.mp hs
    simp only [setInsert]
    by_cases h1 : JobComparator j x = true
    · rw [if_pos h1]
      have hjx : j.launch_at < x.launch_at := (jobComparator_iff j x).mp h1
      refine List.Pairwise.cons ?_ hs
      intro y hy
      rcases List.mem_cons.mp hy with rfl | hy'
      · exact hjx
      · exact lt_trans hjx (hx y hy')
    · rw [if_neg h1]
      by_cases h2 : JobComparator x j = true
      · rw [if_pos h2]
        have hxj : x.launch_at < j.launch_at := (jobComparator_iff x j).mp h2
        refine List.Pairwise.cons ?_ (ih hxs)
        intro y hy
        rcases mem_setInsert j xs y hy with rfl | hy'
        · exact hxj
        · exact hx y hy'
      · rw [if_neg h2]
        exact hs

/-- Any queue built by a batch of schedules on a sorted queue is
sorted. -/
theorem sorted_scheduleAll : ∀ (batch : List (Nat × Time)) (s : SchedState),
    SortedQ s.jobs → SortedQ (scheduleAll s batch).jobs := by
  intro batch
  induction batch with
  | nil =>
    intro s hs
    exact hs
  | cons it rest ih =>
    intro s hs
    obtain ⟨i, t⟩ := it
    exact ih (schedule s i t).1 (sorted_setInsert ⟨s.nextSeq, i, t, false⟩ s.jobs hs)

/-- The state a pass leaves behind. -/
theorem execute_pending_jobs (now : Time) (s : SchedState) :
    (execute_pending now s).1.jobs = (execGo now s.jobs).2.1 :=
  rfl

/-- A dispatch pass splits the queue: a processed prefix — every job of
it canceled or due — whose non-canceled jobs are exactly the pass's
records in order, and the untouched remaining suffix. -/
theorem execGo_split (now : Time) : ∀ q : List Job, ∃ pre : List Job,
    q = pre ++ (execGo now q).2.1 ∧
    recordsOf (execGo now q).1 =
      (pre.filter fun j => !j.canceled).map (fun j => (j, now)) := by
  intro q
  induction q with
  | nil =>
    exact ⟨[], by simp [execGo_nil, recordsOf]⟩
  | cons j rest ih =>
    cases hc : j.canceled with
    | true =>
      obtain ⟨pre, h1, h2⟩ := ih
      refine ⟨j :: pre, ?_, ?_⟩
      · simp only [execGo_cons_canceled now j rest hc, List.cons_append]
        exact congrArg (List.cons j) h1
      · simp only [execGo_cons_canceled now j rest hc, recordsOf, List.filter_cons, hc]
        simpa using h2
    | false =>
      by_cases hl : now < j.launch_at
      · exact ⟨[], by simp [execGo_cons_wait now j rest hc hl, recordsOf]⟩
      · obtain ⟨pre, h1, h2⟩ := ih
        refine ⟨j :: pre, ?_, ?_⟩
        · simp only [execGo_cons_due now j rest hc hl, List.cons_append]
          exact congrArg (List.cons j) h1
        · simp only [execGo_cons_due now j rest hc hl, recordsOf, List.filter_cons, hc]
          simpa using h2

/-- Every job that a whole loop run records came from the starting
queue. -/
theorem loopRun_records_mem (flag : Bool) : ∀ (nows : List Time) (s : SchedState),
    ∀ p ∈ recordsOf (loopRun flag nows s).2.1, p.1 ∈ s.jobs := by
  intro nows
  induction nows with
  | nil =>
    intro s p hp
    simp [loopRun_nil, recordsOf] at hp
  | cons now rest ih =>
    intro s p hp
    by_cases hd : (done s && flag) = true
    · rw [loopRun_cons_exit flag now rest s hd] at hp
      simp [recordsOf] at hp
    · rw [loopRun_cons_go flag now rest s hd] at hp
      simp only at hp
      rw [recordsOf_append] at hp
      rcases List.mem_append.mp hp with h | h
      · exact (execGo_records now s.jobs p (by rwa [records_execute_pending] at h)).2.2.2
      · have hmem := ih (execute_pending now s).1 p h
        rw [execute_pending_jobs] at hmem
        obtain ⟨pre, hsplit, -⟩ := execGo_split now s.jobs
        rw [hsplit]
        exact List.mem_append.mpr (Or.inr hmem)

/-- Starting from a sorted queue, the full sequence of records a loop run
writes — across all passes — is strictly increasing in due time. -/
theorem loopRun_records_sorted (flag : Bool) : ∀ (nows : List Time) (s : SchedState),
    SortedQ s.jobs →
    (recordsOf (loopRun flag nows s).2.1).Pairwise
      (fun p q => p.1.launch_at < q.1.launch_at) := by
  intro nows
  induction nows with
  | nil =>
    intro s _
    simp [loopRun_nil, recordsOf]
  | cons now rest ih =>
    intro s hs
    by_cases hd : (done s && flag) = true
    · rw [loopRun_cons_exit flag now rest s hd]
      simp [recordsOf]
    · rw [loopRun_cons_go flag now rest s hd]
      simp only
      rw [recordsOf_append]
      obtain ⟨pre, hsplit, hrec⟩ := execGo_split now s.jobs
      have hdecomp := List.pairwise_append.mp (hsplit ▸ hs)
      obtain ⟨hpre, hrem, hcross⟩ := hdecomp
      rw [List.pairwise_append]
      refine ⟨?_, ?_, ?_⟩
      · rw [records_execute_pending, hrec, List.pairwise_map]
        exact List.Pairwise.sublist (List.filter_sublist pre) hpre
      · exact ih (execute_pending now s).1 (by rw [execute_pending_jobs]; exact hrem)
      · intro a ha b hb
        rw [records_execute_pending, hrec] at ha
        obtain ⟨x, hx, hxa⟩ := List.mem_map.mp ha
        have hb1 := loopRun_records_mem flag rest (execute_pending now s).1 b hb
        rw [execute_pending_jobs] at hb1
        subst hxa
        exact hcross x (List.mem_of_mem_filter hx) b.1 hb1

/-- C5: among non-canceled jobs the execution order is ascending in due
time — for any batch scheduled up front and any run of the worker over
any clock readings, the sequence of records is non-decreasing (in fact
strictly increasing, since equal-due jobs never coexist in the set, see
the equal-due hazard) in `launch_at`; the queue built by the batch
iterates front-to-back in non-decreasing `launch_at`; and the front the
worker dispatches from is the queue's minimum. -/
theorem C5_execution_order_ascending_due (batch : List (Nat × Time)) (nows : List Time)
    (flag : Bool) :
    SortedQ (scheduleAll initState batch).jobs ∧
    (∀ j l, (scheduleAll initState batch).jobs = j :: l →
      ∀ k ∈ (scheduleAll initState batch).jobs, j.launch_at ≤ k.launch_at) ∧
    (recordsOf (loopRun flag nows (scheduleAll initState batch)).2.1).Pairwise
      (fun p q => p.1.launch_at ≤ q.1.launch_at) := by
  have hsorted : SortedQ (scheduleAll initState batch).jobs :=
    sorted_scheduleAll batch initState (by simp [initState, SortedQ])
  refine ⟨hsorted, ?_, ?_⟩
  · intro j l hjl k hk
    rw [hjl] at hsorted hk
    rcases List.mem_cons.mp hk with rfl | hk'
    · exact le_refl _
    · exact le_of_lt ((List.pairwise_cons.mp hsorted).1 k hk')
  · exact List.Pairwise.imp (fun h => le_of_lt h)
      (loopRun_records_sorted flag nows (scheduleAll initState batch) hsorted)

/-- C5 witness: the batch (id 1, due 5), (id 2, due 3) builds the sorted
queue with the due-3 job at the front (the minimum), and a run at now = 9
executes in ascending due order. -/
theorem C5_witness :
    SortedQ (scheduleAll initState [(1, 5), (2, 3)]).jobs ∧
    (⟨1, 2, 3, false⟩ : Job).launch_at ≤ (⟨0, 1, 5, false⟩ : Job).launch_at ∧
    (recordsOf (loopRun true [9] (scheduleAll initState [(1, 5), (2, 3)])).2.1).Pairwise
      (fun p q => p.1.launch_at ≤ q.1.launch_at) := by
  have h := C5_execution_order_ascending_due [(1, 5), (2, 3)] [9] true
  exact ⟨h.1,
    h.2.1 ⟨1, 2, 3, false⟩ [⟨0, 1, 5, false⟩] (by decide) ⟨0, 1, 5, false⟩ (by decide),
    h.2.2⟩

end Sched
